import Mathlib

/-!
Verification development for the packet I/O core of the `rs2io` repository.

The byte buffer (`Packet`, from `src/packet/bytes.rs`) and the bit buffer
(`PacketBit`, from `src/packet/bits.rs`) are shallowly embedded: machine
integers are modelled as `Nat` (unsigned, two's-complement representation)
or `Int` (signed views), with explicit `% 2^w` wherever the Rust code wraps;
`Vec<u8>` becomes `List Nat` whose entries are kept below 256; fallible
operations return `Option` / `Except` (with `none` / `.error` standing for a
returned `Err` or for a panic, as noted at each definition).
-/

namespace Rs2io

/-- Signed view of an 8-bit two's-complement byte. -/
def i8Of (v : ℕ) : ℤ := if v < 2 ^ 7 then (v : ℤ) else (v : ℤ) - 2 ^ 8

/-- Signed view of a 16-bit two's-complement word. -/
def i16Of (v : ℕ) : ℤ := if v < 2 ^ 15 then (v : ℤ) else (v : ℤ) - 2 ^ 16

/-- Signed view of a 32-bit two's-complement word. -/
def i32Of (v : ℕ) : ℤ := if v < 2 ^ 31 then (v : ℤ) else (v : ℤ) - 2 ^ 32

/-- Unsigned 32-bit two's-complement representation of an integer
(the effect of an `as u32` cast). -/
def u32Of (z : ℤ) : ℕ := (z.emod (2 ^ 32)).toNat

/-- Unsigned 64-bit representation of an integer (an `as usize` cast,
64-bit target). -/
def u64Of (z : ℤ) : ℕ := (z.emod (2 ^ 64)).toNat

/-- Wrapping `u16` subtraction (release-mode overflow semantics). -/
def sub16 (a b : ℕ) : ℕ := (a + 2 ^ 16 - b % 2 ^ 16) % 2 ^ 16

/-- Wrapping `u32` subtraction (release-mode overflow semantics). -/
def sub32u (a b : ℕ) : ℕ := (a + 2 ^ 32 - b % 2 ^ 32) % 2 ^ 32

/-- Wrapping `usize` subtraction (release-mode overflow semantics). -/
def sub64 (a b : ℕ) : ℕ := (a + 2 ^ 64 - b % 2 ^ 64) % 2 ^ 64

/-- Big-endian value of the `n` bytes of `bytes` starting at index `i`
(out-of-range indices read as 0; all in-range uses are bounds-checked by
the callers, mirroring the checked slice reads of the source). -/
def beBytes (bytes : List ℕ) (i : ℕ) : ℕ → ℕ
  | 0 => 0
  | n + 1 => beBytes bytes i n * 256 + bytes.getD (i + n) 0

/-- Big-endian `w`-byte encoding of `n` (the `to_be_bytes` of a `w`-byte
unsigned integer; bytes beyond `w` are discarded, as by an integer cast). -/
def beList : ℕ → ℕ → List ℕ
  | 0, _ => []
  | w + 1, n => n / 2 ^ (8 * w) % 256 :: beList w n

/-- Overwrite `l[i .. i + data.length)` with `data`
(the model of `copy_from_slice`; every caller first ensures the range is
inside `l`). -/
def listWrite (l : List ℕ) (i : ℕ) (data : List ℕ) : List ℕ :=
  l.take i ++ data ++ l.drop (i + data.length)

/-- Model of `Packet` (src/packet/bytes.rs): a growable byte store with a
cursor `pos` and a logical length `len`.  `Vec<u8>` capacity is modelled as
`bytes.length` (`vec![0u8; n]` allocates exactly `n` zeroed bytes). -/
structure Packet where
  bytes : List ℕ
  pos : ℕ
  len : ℕ
deriving DecidableEq, Repr

namespace Packet

/-- `Packet::new(capacity)`: zero-filled buffer, both cursors at 0. -/
def new (capacity : ℕ) : Packet := ⟨List.replicate capacity 0, 0, 0⟩

/-- `Packet::available_count`: `len.saturating_sub(pos)`
(`Nat` subtraction is saturating). -/
def available_count (p : Packet) : ℕ := p.len - p.pos

/-- `Packet::peek`: next readable byte without advancing. -/
def peek (p : Packet) : Option ℕ :=
  if p.available_count = 0 then none else p.bytes[p.pos]?

/-- `Packet::set_pos`: fails when `index > len`. -/
def set_pos (p : Packet) (index : ℕ) : Option Packet :=
  if index > p.len then none else some { p with pos := index }

/-- The `g!` macro check followed by a 1-byte read (`Packet::g1`);
`none` is the returned `PacketError`. -/
def g1 (p : Packet) : Option (ℕ × Packet) :=
  if p.pos + 1 > p.len then none
  else some (p.bytes.getD p.pos 0, { p with pos := p.pos + 1 })

/-- `Packet::g1s`: signed 1-byte read via the `g!` macro. -/
def g1s (p : Packet) : Option (ℤ × Packet) :=
  if p.pos + 1 > p.len then none
  else some (i8Of (p.bytes.getD p.pos 0), { p with pos := p.pos + 1 })

/-- `Packet::g2`: unsigned big-endian 2-byte read via the `g!` macro. -/
def g2 (p : Packet) : Option (ℕ × Packet) :=
  if p.pos + 2 > p.len then none
  else some (beBytes p.bytes p.pos 2, { p with pos := p.pos + 2 })

/-- `Packet::g2s`: signed big-endian 2-byte read via the `g!` macro. -/
def g2s (p : Packet) : Option (ℤ × Packet) :=
  if p.pos + 2 > p.len then none
  else some (i16Of (beBytes p.bytes p.pos 2), { p with pos := p.pos + 2 })

/-- `Packet::g4s`: signed big-endian 4-byte read via the `g!` macro. -/
def g4s (p : Packet) : Option (ℤ × Packet) :=
  if p.pos + 4 > p.len then none
  else some (i32Of (beBytes p.bytes p.pos 4), { p with pos := p.pos + 4 })

/-- `Packet::g3`: the source performs NO `g!` bounds check against `len`;
it advances `pos` by 3 and indexes the backing array directly.  `none`
models the index-out-of-bounds panic when the backing storage itself is too
short; otherwise the read succeeds regardless of `len`. -/
def g3 (p : Packet) : Option (ℕ × Packet) :=
  if p.pos + 3 > p.bytes.length then none
  else some (beBytes p.bytes p.pos 3, { p with pos := p.pos + 3 })

/-- `Packet::g1_alt1`: `bytes[pos] - 128 & 255` with wrapping `u8`
subtraction; no bounds check in the source (`none` models the indexing
panic only). -/
def g1_alt1 (p : Packet) : Option (ℕ × Packet) :=
  if p.pos + 1 > p.bytes.length then none
  else some ((p.bytes.getD p.pos 0 + 256 - 128) % 256 &&& 255,
    { p with pos := p.pos + 1 })

/-- `Packet::g1_alt2`: `!bytes[pos] & 255` (bitwise `u8` complement). -/
def g1_alt2 (p : Packet) : Option (ℕ × Packet) :=
  if p.pos + 1 > p.bytes.length then none
  else some ((p.bytes.getD p.pos 0 ^^^ 255) &&& 255, { p with pos := p.pos + 1 })

/-- `Packet::g1_alt3`: `(128 - bytes[pos]) & 255` with wrapping `u8`
subtraction. -/
def g1_alt3 (p : Packet) : Option (ℕ × Packet) :=
  if p.pos + 1 > p.bytes.length then none
  else some ((128 + 256 - p.bytes.getD p.pos 0 % 256) % 256 &&& 255,
    { p with pos := p.pos + 1 })

/-- `Packet::g2_alt1`.  Rust operator precedence makes
`bytes[pos+1] as u16 & 255 << 8` parse as `b &&& (255 <<< 8)`, which the
model reproduces verbatim. -/
def g2_alt1 (p : Packet) : Option (ℕ × Packet) :=
  if p.pos + 2 > p.bytes.length then none
  else some ((p.bytes.getD (p.pos + 1) 0 &&& (255 <<< 8)) |||
      (p.bytes.getD p.pos 0 &&& 255),
    { p with pos := p.pos + 2 })

/-- `Packet::g2_alt2`: `(b0 as u16 & 255 << 8) | (b1 as u16 - 128 & 255)`
with the same precedence reading and wrapping `u16` subtraction. -/
def g2_alt2 (p : Packet) : Option (ℕ × Packet) :=
  if p.pos + 2 > p.bytes.length then none
  else some ((p.bytes.getD p.pos 0 &&& (255 <<< 8)) |||
      (sub16 (p.bytes.getD (p.pos + 1) 0) 128 &&& 255),
    { p with pos := p.pos + 2 })

/-- `Packet::g2_alt3`: `(b0 as u16 - 128 & 255) | (b1 as u16) << 8`. -/
def g2_alt3 (p : Packet) : Option (ℕ × Packet) :=
  if p.pos + 2 > p.bytes.length then none
  else some ((sub16 (p.bytes.getD p.pos 0) 128 &&& 255) |||
      (p.bytes.getD (p.pos + 1) 0 <<< 8),
    { p with pos := p.pos + 2 })

/-- `Packet::ensure_capacity`: `bytes.resize(pos + space_needed, 0)` when
the backing storage is too short. -/
def ensure_capacity (p : Packet) (space_needed : ℕ) : Packet :=
  if p.pos + space_needed > p.bytes.length then
    { p with bytes := p.bytes ++ List.replicate (p.pos + space_needed - p.bytes.length) 0 }
  else p

/-- The `p!` macro: remember `pos`, ensure capacity, copy the slice at the
remembered position, advance `pos`, and raise `len` to cover the write. -/
def pRaw (p : Packet) (data : List ℕ) : Packet :=
  let pos0 := p.pos
  let q := p.ensure_capacity data.length
  let pos1 := pos0 + data.length
  { bytes := listWrite q.bytes pos0 data
    pos := pos1
    len := if pos1 > q.len then pos1 else q.len }

/-- `Packet::write_at_cursor`: like `p!` but guarded by a capacity check
(capacity is modelled as `bytes.length`), resizing to exactly
`pos + slice_len`. -/
def write_at_cursor (p : Packet) (data : List ℕ) : Packet :=
  let q :=
    if p.bytes.length < p.pos + data.length then
      { p with bytes := p.bytes ++ List.replicate (p.pos + data.length - p.bytes.length) 0 }
    else p
  let pos1 := q.pos + data.length
  { bytes := listWrite q.bytes q.pos data
    pos := pos1
    len := if pos1 > q.len then pos1 else q.len }

/-- `Packet::p1` (a `u8` argument: only the low byte is meaningful). -/
def p1 (p : Packet) (value : ℕ) : Packet := p.pRaw [value % 256]

/-- `Packet::p1s`: writes the two's-complement byte of an `i8`. -/
def p1s (p : Packet) (value : ℤ) : Packet := p.pRaw [(value.emod (2 ^ 8)).toNat]

/-- `Packet::p2`: big-endian `u16` via `write_at_cursor`. -/
def p2 (p : Packet) (value : ℕ) : Packet := p.write_at_cursor (beList 2 value)

/-- `Packet::p4`: big-endian `u32` via the `p!` macro. -/
def p4 (p : Packet) (value : ℕ) : Packet := p.pRaw (beList 4 value)

/-- `Packet::p4s`: big-endian two's-complement `i32` via the `p!` macro. -/
def p4s (p : Packet) (value : ℤ) : Packet := p.pRaw (beList 4 (u32Of value))

/-- `Packet::p1_alt1`: writes `value + 128` (wrapping) and, unlike the
other alt writers, does update `len`. -/
def p1_alt1 (p : Packet) (value : ℕ) : Packet :=
  let q := p.ensure_capacity 1
  let bytes := q.bytes.set q.pos ((value + 128) % 256)
  let pos1 := q.pos + 1
  { bytes := bytes, pos := pos1, len := if pos1 > q.len then pos1 else q.len }

/-- `Packet::p1_alt2`: writes `!value`; the source does NOT update `len`. -/
def p1_alt2 (p : Packet) (value : ℕ) : Packet :=
  let q := p.ensure_capacity 1
  { q with bytes := q.bytes.set q.pos ((value % 256) ^^^ 255), pos := q.pos + 1 }

/-- `Packet::p1_alt3`: writes `(128 - value) as u8` (wrapping `usize`
subtraction, then truncation); the source does NOT update `len`. -/
def p1_alt3 (p : Packet) (value : ℕ) : Packet :=
  let q := p.ensure_capacity 1
  { q with bytes := q.bytes.set q.pos (sub64 128 value % 256), pos := q.pos + 1 }

/-- `Packet::p2_alt1`: little-endian 2-byte write; the source does NOT
update `len`. -/
def p2_alt1 (p : Packet) (value : ℕ) : Packet :=
  let q := p.ensure_capacity 2
  { q with
    bytes := (q.bytes.set q.pos (value % 256)).set (q.pos + 1) (value >>> 8 % 256)
    pos := q.pos + 2 }

/-- `Packet::p2_alt2`: big-endian with `+128` on the low byte; the source
does NOT update `len`. -/
def p2_alt2 (p : Packet) (value : ℕ) : Packet :=
  let q := p.ensure_capacity 2
  { q with
    bytes := (q.bytes.set q.pos (value >>> 8 % 256)).set (q.pos + 1) ((value + 128) % 256)
    pos := q.pos + 2 }

/-- `Packet::p2_alt3`: `+128` on the low byte written first; the source
does NOT update `len`. -/
def p2_alt3 (p : Packet) (value : ℕ) : Packet :=
  let q := p.ensure_capacity 2
  { q with
    bytes := (q.bytes.set q.pos ((value + 128) % 256)).set (q.pos + 1) (value >>> 8 % 256)
    pos := q.pos + 2 }

/-- `Packet::psmart_u16`: `p1s(value as i8)` when `value <= 127`, else
`p2(value as u16)` — note the source adds no bias in the wide branch. -/
def psmart_u16 (p : Packet) (value : ℕ) : Packet :=
  if value ≤ 127 then p.p1s (i8Of (value % 256)) else p.p2 (value % 2 ^ 16)

/-- `Packet::gsmart_u16`: peeks one byte; `> 127` selects the 2-byte branch
`g2s(..) as usize - 32768` (the cast sign-extends to 64 bits; in the branch
taken the value is negative, so the `usize` subtraction never underflows
and plain `Nat` subtraction is exact). -/
def gsmart_u16 (p : Packet) : Option (ℕ × Packet) :=
  match p.peek with
  | none => none
  | some next =>
    if next > 127 then
      (p.g2s).map fun zq => (u64Of zq.1 - 32768, zq.2)
    else
      p.g1

/-- `Packet::psmart_u32`: writes `p2(value as u16 + 0x4000)` for the
compact range; the second branch's guard
`value >= 1073741824 && value <= 1073741823` is reproduced verbatim from
the source (it is unsatisfiable); any other value writes nothing. -/
def psmart_u32 (p : Packet) (value : ℤ) : Packet :=
  if -16384 ≤ value ∧ value ≤ 16383 then
    p.p2 (((value.emod (2 ^ 16)).toNat + 16384) % 2 ^ 16)
  else if 1073741824 ≤ value ∧ value ≤ 1073741823 then
    p.p4s (i32Of (2 ^ 31 ||| u32Of (value + 1073741824)))
  else p

/-- `Packet::gsmart_u32`: high bit of the peeked byte selects
`g2s(..) as u32 - 16384` or `g4s(..) as u32 - 1073741824` (wrapping `u32`
subtraction, release semantics). -/
def gsmart_u32 (p : Packet) : Option (ℕ × Packet) :=
  match p.peek with
  | none => none
  | some next =>
    if next &&& 128 = 0 then
      (p.g2s).map fun zq => (sub32u (u32Of zq.1) 16384, zq.2)
    else
      (p.g4s).map fun zq => (sub32u (u32Of zq.1) 1073741824, zq.2)

/-- `Packet::gdata`: copies up to the clamped end but advances `pos` by the
full requested `len` (exactly as the source does). -/
def gdata (p : Packet) (n : ℕ) : List ℕ × Packet :=
  let e := min (p.pos + n) p.bytes.length
  ((p.bytes.drop p.pos).take (e - p.pos), { p with pos := p.pos + n })

/-- `Packet::pdata`: writes `min(data.len(), available_count())` bytes at
`pos` — the write is clamped to the logical length. -/
def pdata (p : Packet) (data : List ℕ) : Packet :=
  let k := min data.length p.available_count
  if k > 0 then
    { p with bytes := listWrite p.bytes p.pos (data.take k), pos := p.pos + k }
  else p

end Packet

/-- Big-endian base-256 digits of `n`, most significant first, no leading
zeros (`BigUint::to_bytes_be` without the zero special case); the first
argument is recursion fuel, always called with fuel `n` itself. -/
def bytesBEAux : ℕ → ℕ → List ℕ
  | 0, _ => []
  | f + 1, n => if n = 0 then [] else bytesBEAux f (n / 256) ++ [n % 256]

/-- `BigUint::to_bytes_be`: big-endian magnitude bytes, `[0]` for zero. -/
def natBytesBE (n : ℕ) : List ℕ := if n = 0 then [0] else bytesBEAux n n

/-- Big-endian unsigned value of a byte string. -/
def beConcat (l : List ℕ) : ℕ := l.foldl (fun a b => a * 256 + b) 0

/-- `BigInt::from_signed_bytes_be`: two's-complement interpretation of a
big-endian byte string (empty input is zero). -/
def fromSignedBytesBE (l : List ℕ) : ℤ :=
  if l.length = 0 then 0
  else if l.headD 0 < 128 then (beConcat l : ℤ)
  else (beConcat l : ℤ) - 2 ^ (8 * l.length)

/-- `BigInt::to_signed_bytes_be`: minimal two's-complement big-endian
encoding (`[0]` for zero; a leading `0x00` is added when the top bit of a
positive magnitude is set; negative values use the smallest width whose
sign bit accommodates them). -/
def toSignedBytesBE (z : ℤ) : List ℕ :=
  if 0 ≤ z then
    let bs := natBytesBE z.toNat
    if 128 ≤ bs.headD 0 then 0 :: bs else bs
  else
    let m := z.natAbs
    let k := (bytesBEAux (2 * m - 1) (2 * m - 1)).length
    beList k (2 ^ (8 * k) - m)

/-- Wrapping 32-bit addition (`i32::wrapping_add` on the two's-complement
representation). -/
def add32 (a b : ℕ) : ℕ := (a + b) % 2 ^ 32

/-- Wrapping 32-bit subtraction (`i32::wrapping_sub` on the
two's-complement representation). -/
def sub32 (a b : ℕ) : ℕ := (a + 2 ^ 32 - b % 2 ^ 32) % 2 ^ 32

/-- Arithmetic shift right by `k` of a 32-bit two's-complement word
(`i32`'s `>>` operator): the sign bit is replicated into the vacated
positions. -/
def asr32 (k a : ℕ) : ℕ :=
  if a < 2 ^ 31 then a >>> k else a >>> k + (2 ^ 32 - 2 ^ (32 - k))

/-- The TEA round constant: two's-complement representation of the `i32`
literal `-1640531527` (that is, `0x9E3779B9`). -/
def tkDelta : ℕ := 2654435769

/-- The common round expression
`(x << 4 ^ x >> 5).wrapping_add(x) ^ kk.wrapping_add(s)` of
`tiny_key_encrypt` / `tiny_key_decrypt` (`<<` wraps, `>>` is arithmetic). -/
def tkMix (x s kk : ℕ) : ℕ :=
  add32 ((x <<< 4 % 2 ^ 32) ^^^ asr32 5 x) x ^^^ add32 kk s

/-- One round of the `tiny_key_encrypt` inner loop on the state
`(v0, v1, sum)`; the key is the 4-word array, indexed with
`(sum >> 11) & 3` before and `sum & 3` after the `sum` update. -/
def encRound (key : List ℕ) : ℕ × ℕ × ℕ → ℕ × ℕ × ℕ :=
  fun s =>
    let v1 := add32 s.2.1 (tkMix s.1 s.2.2 (key.getD (asr32 11 s.2.2 &&& 3) 0))
    let sum := add32 s.2.2 tkDelta
    let v0 := add32 s.1 (tkMix v1 sum (key.getD (sum &&& 3) 0))
    (v0, v1, sum)

/-- One round of the `tiny_key_decrypt` inner loop. -/
def decRound (key : List ℕ) : ℕ × ℕ × ℕ → ℕ × ℕ × ℕ :=
  fun s =>
    let v0 := sub32 s.1 (tkMix s.2.1 s.2.2 (key.getD (s.2.2 &&& 3) 0))
    let sum := sub32 s.2.2 tkDelta
    let v1 := sub32 s.2.1 (tkMix v0 sum (key.getD (asr32 11 sum &&& 3) 0))
    (v0, v1, sum)

/-- The 32 rounds of `tiny_key_encrypt` on one 8-byte block, starting from
`sum = 0`. -/
def encryptBlock (key : List ℕ) (v0 v1 : ℕ) : ℕ × ℕ :=
  let s := (encRound key)^[32] (v0, v1, 0)
  (s.1, s.2.1)

/-- The 32 rounds of `tiny_key_decrypt` on one 8-byte block, starting from
`sum = delta.wrapping_mul(32)`. -/
def decryptBlock (key : List ℕ) (v0 v1 : ℕ) : ℕ × ℕ :=
  let s := (decRound key)^[32] (v0, v1, tkDelta * 32 % 2 ^ 32)
  (s.1, s.2.1)

/-- Errors of the buffer-level cipher calls: `eofErr` is the `PacketError`
propagated from a failed `g4s`, `panicErr` is the panic of
`v.try_into::<u32>().unwrap()` on a negative `i32` word. -/
inductive TkErr where
  | eofErr : TkErr
  | panicErr : TkErr
deriving DecidableEq, Repr

namespace Packet

/-- The per-block loop of `Packet::tiny_key_encrypt`: read two signed
words, run 32 encryption rounds, step `pos` back 8 and write the words
back with `p4(v.try_into().unwrap())` — which panics whenever the
encrypted word is negative (its two's-complement representation is
`≥ 2^31`). -/
def tinyKeyEncryptGo (key : List ℕ) : ℕ → Packet → Except TkErr Packet
  | 0, q => .ok q
  | c + 1, q =>
    match q.g4s with
    | none => .error .eofErr
    | some (z0, q1) =>
      match q1.g4s with
      | none => .error .eofErr
      | some (z1, q2) =>
        let w := encryptBlock key (u32Of z0) (u32Of z1)
        if 2 ^ 31 ≤ w.1 ∨ 2 ^ 31 ≤ w.2 then .error .panicErr
        else
          let q3 := { q2 with pos := q2.pos - 8 }
          tinyKeyEncryptGo key c ((q3.p4 w.1).p4 w.2)

/-- `Packet::tiny_key_encrypt`: processes `bytes.len() / 8` blocks from
position 0. -/
def tiny_key_encrypt (p : Packet) (key : List ℕ) : Except TkErr Packet :=
  tinyKeyEncryptGo key (p.bytes.length / 8) { p with pos := 0 }

/-- The per-block loop of `Packet::tiny_key_decrypt`, with the same
`try_into().unwrap()` panic on negative output words. -/
def tinyKeyDecryptGo (key : List ℕ) : ℕ → Packet → Except TkErr Packet
  | 0, q => .ok q
  | c + 1, q =>
    match q.g4s with
    | none => .error .eofErr
    | some (z0, q1) =>
      match q1.g4s with
      | none => .error .eofErr
      | some (z1, q2) =>
        let w := decryptBlock key (u32Of z0) (u32Of z1)
        if 2 ^ 31 ≤ w.1 ∨ 2 ^ 31 ≤ w.2 then .error .panicErr
        else
          let q3 := { q2 with pos := q2.pos - 8 }
          tinyKeyDecryptGo key c ((q3.p4 w.1).p4 w.2)

/-- `Packet::tiny_key_decrypt`: processes `bytes.len() / 8` blocks from
position 0. -/
def tiny_key_decrypt (p : Packet) (key : List ℕ) : Except TkErr Packet :=
  tinyKeyDecryptGo key (p.bytes.length / 8) { p with pos := 0 }

/-- `Packet::rsa_encrypt`: reads the first `pos` bytes as a signed
big-endian integer, computes `plaintext ^ exponent mod modulus`
(`BigInt::modpow` with the nonnegative exponent and positive modulus used
by the caller; `Int.emod` matches its result sign), then writes a 2-byte
length prefix with `p2` and the ciphertext with `pdata`. -/
def rsa_encrypt (p : Packet) (exponent modulus : ℤ) : Packet :=
  let input_len := p.pos
  let q0 := { p with pos := 0 }
  let dq := q0.gdata input_len
  let plaintext := fromSignedBytesBE dq.1
  let result := plaintext ^ exponent.toNat % modulus
  let encrypted := toSignedBytesBE result
  let q1 := { dq.2 with pos := 0 }
  let q2 := q1.p2 encrypted.length
  q2.pdata encrypted

end Packet

/-- Model of `PacketBit` (src/packet/bits.rs): a bit-granular buffer with
independent writer and reader cursors, each a (byte index, bit offset)
pair with the bit offset kept in `0..8`. -/
structure PacketBit where
  writerBytePos : ℕ
  writerBitPos : ℕ
  readerBytePos : ℕ
  readerBitPos : ℕ
  buffer : List ℕ
deriving DecidableEq, Repr

/-- Entry `n` of the `BIT_MASKS` table (documented in the source as
`2^n - 1`). -/
def bitMask (n : ℕ) : ℕ := 2 ^ n - 1

/-- The capacity-doubling loop of `PacketBit::ensure_capacity`
(`while new_capacity < required { new_capacity *= 2 }`); the first
argument is recursion fuel.  Starting from a positive capacity the loop
needs fewer than `required` iterations, so callers pass `required` as
fuel. -/
def doubleUntil : ℕ → ℕ → ℕ → ℕ
  | 0, cur, _ => cur
  | f + 1, cur, req => if cur < req then doubleUntil f (cur * 2) req else cur

/-- `PacketBit::ensure_capacity`: grows by doubling into a fresh
zero-filled buffer, copying the old contents.  From an empty buffer the
Rust loop never terminates; `none` models that divergence. -/
def ensureCapacity (buf : List ℕ) (required : ℕ) : Option (List ℕ) :=
  if required ≤ buf.length then some buf
  else if buf.length = 0 then none
  else
    let newCap := doubleUntil required buf.length required
    some (buf ++ List.replicate (newCap - buf.length) 0)

/-- The inner loop of `PacketBit::write_bits`.  Arguments: fuel (each
iteration writes at least one bit, so the initial `num_bits` is enough),
buffer, writer byte/bit position, bits remaining, value remaining.  The
`bits_to_write = 0` guard exits a state the Rust loop would spin on
forever (reachable only if the bit offset were ≥ 8, which no reachable
state produces). -/
def writeLoop : ℕ → List ℕ → ℕ → ℕ → ℕ → ℕ → List ℕ × ℕ × ℕ
  | 0, buf, wB, wb, _, _ => (buf, wB, wb)
  | fuel + 1, buf, wB, wb, rem, val =>
    if rem = 0 then (buf, wB, wb)
    else
      let avail := 8 - wb
      let k := min rem avail
      if k = 0 then (buf, wB, wb)
      else
        let shift := rem - k
        let bits := val >>> shift &&& bitMask k
        let byteShift := avail - k
        let buf1 := buf.set wB (buf.getD wB 0 ||| bits <<< byteShift % 256)
        let wB1 := if wb + k ≥ 8 then wB + 1 else wB
        let wb1 := if wb + k ≥ 8 then 0 else wb + k
        writeLoop fuel buf1 wB1 wb1 (rem - k) (val &&& bitMask (rem - k))

/-- `PacketBit::write_bits`: rejects `num_bits ∉ [1,32]`, ensures
capacity for `writer_byte_pos + (writer_bit_pos + num_bits + 7) / 8`
bytes, masks the value to its low `num_bits` bits, and runs the write
loop. -/
def writeBits (s : PacketBit) (value numBits : ℕ) : Option PacketBit :=
  if numBits = 0 ∨ numBits > 32 then none
  else
    match ensureCapacity s.buffer
        (s.writerBytePos + (s.writerBitPos + numBits + 7) / 8) with
    | none => none
    | some buf =>
      let r := writeLoop numBits buf s.writerBytePos s.writerBitPos numBits
        (value &&& bitMask numBits)
      some { s with buffer := r.1, writerBytePos := r.2.1, writerBitPos := r.2.2 }

/-- The inner loop of `PacketBit::read_bits`.  Arguments: fuel, buffer,
reader byte/bit position, bits remaining, accumulated result.  The mask
`BIT_MASKS[k] as u8` needs no truncation since `k ≤ 8`.  Indexing uses
the written extent as its bound (checked before the loop), so the
default-0 list read is only reached in bounds. -/
def readLoop : ℕ → List ℕ → ℕ → ℕ → ℕ → ℕ → ℕ × ℕ × ℕ
  | 0, _, rB, rb, _, acc => (acc, rB, rb)
  | fuel + 1, buf, rB, rb, rem, acc =>
    if rem = 0 then (acc, rB, rb)
    else
      let avail := 8 - rb
      let k := min rem avail
      if k = 0 then (acc, rB, rb)
      else
        let byteShift := avail - k
        let bits := buf.getD rB 0 >>> byteShift &&& bitMask k
        let acc1 := acc ||| bits <<< (rem - k)
        let rB1 := if rb + k ≥ 8 then rB + 1 else rB
        let rb1 := if rb + k ≥ 8 then 0 else rb + k
        readLoop fuel buf rB1 rb1 (rem - k) acc1

/-- `PacketBit::read_bits`: rejects `num_bits ∉ [1,32]`, then fails with
`UnexpectedEof` when the whole bytes required from the reader position
exceed the written byte extent `writer_byte_pos + (writer_bit_pos > 0)`;
the check precedes any cursor mutation, so the state component is
untouched on failure. -/
def readBits (s : PacketBit) (numBits : ℕ) : Option ℕ × PacketBit :=
  if numBits = 0 ∨ numBits > 32 then (none, s)
  else
    let required := (s.readerBitPos + numBits + 7) / 8
    if s.readerBytePos + required >
        s.writerBytePos + (if 0 < s.writerBitPos then 1 else 0) then
      (none, s)
    else
      let r := readLoop numBits s.buffer s.readerBytePos s.readerBitPos numBits 0
      (some r.1, { s with readerBytePos := r.2.1, readerBitPos := r.2.2 })

namespace PacketBit

/-- `PacketBit::new()`: 32 zero bytes, all cursors at 0. -/
def new : PacketBit := ⟨0, 0, 0, 0, List.replicate 32 0⟩

/-- `PacketBit::bits_written`: absolute writer bit offset. -/
def bits_written (s : PacketBit) : ℕ := s.writerBytePos * 8 + s.writerBitPos

/-- `PacketBit::bits_read`: absolute reader bit offset. -/
def bits_read (s : PacketBit) : ℕ := s.readerBytePos * 8 + s.readerBitPos

end PacketBit

/-- The spec's concrete scenario: write 2/3, 100/8, 0/1, 2000/16 into a
fresh bit buffer, then read back 3, 8, 1 and 16 bits. -/
def bitSeqDemo : Option (List ℕ) :=
  (writeBits PacketBit.new 2 3).bind fun s1 =>
  (writeBits s1 100 8).bind fun s2 =>
  (writeBits s2 0 1).bind fun s3 =>
  (writeBits s3 2000 16).bind fun s4 =>
  let r1 := readBits s4 3
  let r2 := readBits r1.2 8
  let r3 := readBits r2.2 1
  let r4 := readBits r3.2 16
  r1.1.bind fun a => r2.1.bind fun b => r3.1.bind fun c =>
    r4.1.map fun d => [a, b, c, d]

/-! ## Helper lemmas -/

theorem getD_set_self {l : List ℕ} {i : ℕ} (h : i < l.length) (a : ℕ) :
    (l.set i a).getD i 0 = a := by
  simp [List.getD_eq_getElem?_getD, List.getElem?_set_self h]

theorem getD_set_ne {l : List ℕ} {i j : ℕ} (h : i ≠ j) (a : ℕ) :
    (l.set i a).getD j 0 = l.getD j 0 := by
  simp [List.getD_eq_getElem?_getD, List.getElem?_set_ne h]

theorem getD_replicate_zero (n j : ℕ) : (List.replicate n (0 : ℕ)).getD j 0 = 0 := by
  simp only [List.getD_eq_getElem?_getD, List.getElem?_replicate]
  split <;> rfl

theorem testBit_eq_false_of_mod {x m i : ℕ} (hx : x % 2 ^ m = 0) (hi : i < m) :
    x.testBit i = false := by
  obtain ⟨q, rfl⟩ := Nat.dvd_of_mod_eq_zero hx
  rw [Nat.mul_comm, ← Nat.shiftLeft_eq]
  simp [Nat.testBit_shiftLeft, Nat.not_le.mpr hi]

/-- Reassembling a value from its high and low parts at a cut `e`. -/
theorem or_shift_mod (v e : ℕ) : v >>> e <<< e ||| v % 2 ^ e = v := by
  apply Nat.eq_of_testBit_eq
  intro i
  simp only [Nat.testBit_or, Nat.testBit_shiftLeft, Nat.testBit_shiftRight,
    Nat.testBit_mod_two_pow, ge_iff_le]
  by_cases h : e ≤ i
  · have h2 : ¬i < e := by omega
    have h3 : e + (i - e) = i := by omega
    simp [h, h2, h3]
  · simp [h, Nat.lt_of_not_le h]

/-- Reading back a `k`-bit field inserted at shift `s` into a byte whose
low `s + k` bits were zero. -/
theorem or_extract (old w s k : ℕ) (hold : old % 2 ^ (s + k) = 0) (hw : w < 2 ^ k) :
    (old ||| w <<< s) >>> s &&& bitMask k = w := by
  apply Nat.eq_of_testBit_eq
  intro i
  simp only [bitMask, Nat.testBit_and, Nat.testBit_shiftRight, Nat.testBit_or,
    Nat.testBit_shiftLeft, Nat.testBit_two_pow_sub_one, ge_iff_le]
  by_cases h : i < k
  · have h1 : old.testBit (s + i) = false := testBit_eq_false_of_mod hold (by omega)
    have h2 : s ≤ s + i := by omega
    have h3 : s + i - s = i := by omega
    simp [h, h1, h2, h3]
  · have h1 : w.testBit i = false :=
      Nat.testBit_lt_two_pow
        (lt_of_lt_of_le hw (Nat.pow_le_pow_right (by norm_num) (by omega)))
    simp [h, h1]

theorem shiftLeft_lt_pow {v e s : ℕ} (hv : v < 2 ^ e) : v <<< s < 2 ^ (e + s) := by
  rw [Nat.shiftLeft_eq, Nat.pow_add]
  exact Nat.mul_lt_mul_of_lt_of_le hv (Nat.le_refl _) (Nat.pos_pow_of_pos s (by norm_num))

theorem shiftRight_lt_pow {v e s : ℕ} (hv : v < 2 ^ (e + s)) : v >>> s < 2 ^ e := by
  rw [Nat.shiftRight_eq_div_pow]
  rw [Nat.div_lt_iff_lt_mul (Nat.pos_pow_of_pos s (by norm_num))]
  rw [Nat.pow_add] at hv
  exact hv

/-! ## Lemmas about the bit-buffer loops -/

theorem writeLoop_rem_zero (fuel : ℕ) (buf : List ℕ) (wB wb val : ℕ) :
    writeLoop fuel buf wB wb 0 val = (buf, wB, wb) := by
  cases fuel <;> simp [writeLoop]

theorem readLoop_rem_zero (fuel : ℕ) (buf : List ℕ) (rB rb acc : ℕ) :
    readLoop fuel buf rB rb 0 acc = (acc, rB, rb) := by
  cases fuel <;> simp [readLoop]

/-- The write loop never touches bytes below its starting byte index. -/
theorem writeLoop_frame (fuel : ℕ) :
    ∀ (buf : List ℕ) (wB wb rem val j : ℕ), j < wB →
      ((writeLoop fuel buf wB wb rem val).1).getD j 0 = buf.getD j 0 := by
  induction fuel with
  | zero => intro buf wB wb rem val j _; simp [writeLoop]
  | succ F ih =>
    intro buf wB wb rem val j hj
    simp only [writeLoop]
    by_cases h0 : rem = 0
    · simp [h0]
    by_cases hk : min rem (8 - wb) = 0
    · simp [h0, hk]
    simp only [h0, hk, if_false]
    rw [ih _ _ _ _ _ j (by split <;> omega)]
    exact getD_set_ne (by omega) _

/-- The write loop keeps every byte below 256. -/
theorem writeLoop_bytes_lt (fuel : ℕ) :
    ∀ (buf : List ℕ) (wB wb rem val : ℕ),
      (∀ i, buf.getD i 0 < 256) →
      ∀ i, ((writeLoop fuel buf wB wb rem val).1).getD i 0 < 256 := by
  induction fuel with
  | zero => intro buf wB wb rem val h i; simpa [writeLoop] using h i
  | succ F ih =>
    intro buf wB wb rem val h i
    simp only [writeLoop]
    by_cases h0 : rem = 0
    · simpa [h0] using h i
    by_cases hk : min rem (8 - wb) = 0
    · simpa [h0, hk] using h i
    simp only [h0, hk, if_false]
    apply ih
    intro i2
    by_cases hij : wB = i2
    · subst hij
      by_cases hlen : wB < buf.length
      · rw [getD_set_self hlen]
        have h1 : buf.getD wB 0 < 2 ^ 8 := h wB
        have h2 : (val >>> (rem - min rem (8 - wb)) &&& bitMask (min rem (8 - wb)))
            <<< (8 - wb - min rem (8 - wb)) % 256 < 2 ^ 8 :=
          Nat.mod_lt _ (by norm_num)
        exact Nat.or_lt_two_pow h1 h2
      · rw [List.set_eq_of_length_le (by omega)]
        exact h wB
    · rw [getD_set_ne hij]
      exact h i2

/-- The write loop advances the writer by exactly `rem` bits and keeps the
bit offset in `0..8`. -/
theorem writeLoop_pos (fuel : ℕ) :
    ∀ (buf : List ℕ) (wB wb rem val : ℕ), rem ≤ fuel → wb < 8 →
      8 * (writeLoop fuel buf wB wb rem val).2.1 + (writeLoop fuel buf wB wb rem val).2.2
          = 8 * wB + wb + rem
        ∧ (writeLoop fuel buf wB wb rem val).2.2 < 8 := by
  induction fuel with
  | zero =>
    intro buf wB wb rem val hf hb
    have : rem = 0 := by omega
    subst this
    simp [writeLoop]
    omega
  | succ F ih =>
    intro buf wB wb rem val hf hb
    by_cases h0 : rem = 0
    · subst h0; simp [writeLoop]; omega
    have hk : ¬min rem (8 - wb) = 0 := by
      have h1 : 1 ≤ rem := by omega
      have h2 : 1 ≤ 8 - wb := by omega
      have := Nat.le_min.mpr ⟨h1, h2⟩
      omega
    simp only [writeLoop, h0, hk, if_false]
    have hkle : min rem (8 - wb) ≤ rem := Nat.min_le_left _ _
    have hkle2 : min rem (8 - wb) ≤ 8 - wb := Nat.min_le_right _ _
    have hk1 : 1 ≤ min rem (8 - wb) := by omega
    by_cases hc : wb + min rem (8 - wb) ≥ 8
    · simp only [hc, if_pos]
      have := ih (buf.set wB (buf.getD wB 0 |||
          (val >>> (rem - min rem (8 - wb)) &&& bitMask (min rem (8 - wb)))
            <<< (8 - wb - min rem (8 - wb)) % 256))
        (wB + 1) 0 (rem - min rem (8 - wb)) (val &&& bitMask (rem - min rem (8 - wb)))
        (by omega) (by omega)
      omega
    · simp only [hc, if_neg, if_false]
      have := ih (buf.set wB (buf.getD wB 0 |||
          (val >>> (rem - min rem (8 - wb)) &&& bitMask (min rem (8 - wb)))
            <<< (8 - wb - min rem (8 - wb)) % 256))
        wB (wb + min rem (8 - wb)) (rem - min rem (8 - wb))
        (val &&& bitMask (rem - min rem (8 - wb)))
        (by omega) (by omega)
      omega

/-- Central round-trip lemma: when reader and writer start at the same bit
position, every bit at or after that position is zero, all bytes are in
range and the buffer is large enough, running the read loop on the write
loop's output buffer recovers the written value (ORed onto the
accumulator) and ends exactly at the writer's end position. -/
theorem readLoop_writeLoop (fuel : ℕ) :
    ∀ (rem : ℕ) (buf : List ℕ) (B b val acc : ℕ),
      rem ≤ fuel → b < 8 → val < 2 ^ rem →
      (∀ j, buf.getD j 0 < 256) →
      buf.getD B 0 % 2 ^ (8 - b) = 0 →
      (∀ j, B < j → buf.getD j 0 = 0) →
      8 * B + b + rem ≤ 8 * buf.length →
      readLoop fuel (writeLoop fuel buf B b rem val).1 B b rem acc =
        (acc ||| val, (writeLoop fuel buf B b rem val).2.1,
          (writeLoop fuel buf B b rem val).2.2) := by
  induction fuel with
  | zero =>
    intro rem buf B b val acc hf _ hv _ _ _ _
    have h0 : rem = 0 := by omega
    subst h0
    have hv0 : val = 0 := by omega
    subst hv0
    simp [writeLoop, readLoop]
  | succ F ih =>
    intro rem buf B b val acc hf hb hv hbytes hzero hhigh hcap
    by_cases h0 : rem = 0
    · subst h0
      have hv0 : val = 0 := by omega
      subst hv0
      simp [writeLoop, readLoop]
    have hk : ¬min rem (8 - b) = 0 := by
      have h1 : 1 ≤ rem := by omega
      have h2 : 1 ≤ 8 - b := by omega
      have := Nat.le_min.mpr ⟨h1, h2⟩
      omega
    have hBlen : B < buf.length := by omega
    by_cases hcase : rem ≤ 8 - b
    · -- single chunk: the whole value fits in the current byte
      have hmin : min rem (8 - b) = rem := Nat.min_eq_left hcase
      have hand : val &&& bitMask rem = val := by
        rw [bitMask]; exact Nat.and_pow_two_sub_one_of_lt_two_pow hv
      have hsl : val <<< (8 - b - rem) < 2 ^ (rem + (8 - b - rem)) := shiftLeft_lt_pow hv
      have heq8 : rem + (8 - b - rem) = 8 - b := by omega
      rw [heq8] at hsl
      have hsl2 : val <<< (8 - b - rem) < 256 := by
        have h28 : (2 : ℕ) ^ (8 - b) ≤ 2 ^ 8 :=
          Nat.pow_le_pow_right (by norm_num) (by omega)
        omega
      have hex : (buf.getD B 0 ||| val <<< (8 - b - rem)) >>> (8 - b - rem)
          &&& bitMask rem = val := by
        apply or_extract
        · have : 8 - b - rem + rem = 8 - b := by omega
          rw [this]; exact hzero
        · exact hv
      simp only [writeLoop, readLoop, h0, hk, hmin, Nat.sub_self, if_false,
        writeLoop_rem_zero, readLoop_rem_zero, Nat.shiftRight_zero,
        Nat.shiftLeft_zero, hand, Nat.mod_eq_of_lt hsl2, getD_set_self hBlen, hex,
        ite_false]
    · -- the chunk fills the current byte; recurse on the rest
      have hmin : min rem (8 - b) = 8 - b := Nat.min_eq_right (by omega)
      have hge : b + (8 - b) ≥ 8 := by omega
      have heqr : 8 - b + (rem - (8 - b)) = rem := by omega
      have hsr : val >>> (rem - (8 - b)) < 2 ^ (8 - b) :=
        shiftRight_lt_pow (by rw [heqr]; exact hv)
      have hand : val >>> (rem - (8 - b)) &&& bitMask (8 - b) = val >>> (rem - (8 - b)) := by
        rw [bitMask]; exact Nat.and_pow_two_sub_one_of_lt_two_pow hsr
      have handv : val &&& bitMask (rem - (8 - b)) = val % 2 ^ (rem - (8 - b)) := by
        rw [bitMask]; exact Nat.and_pow_two_sub_one_eq_mod _ _
      have hmod : val >>> (rem - (8 - b)) % 256 = val >>> (rem - (8 - b)) := by
        have h28 : (2 : ℕ) ^ (8 - b) ≤ 2 ^ 8 :=
          Nat.pow_le_pow_right (by norm_num) (by omega)
        omega
      have hex : (buf.getD B 0 ||| val >>> (rem - (8 - b))) &&& bitMask (8 - b)
          = val >>> (rem - (8 - b)) := by
        have := or_extract (buf.getD B 0) (val >>> (rem - (8 - b))) 0 (8 - b)
          (by simpa using hzero) hsr
        simpa using this
      have hframe : ((writeLoop F
            (buf.set B (buf.getD B 0 ||| val >>> (rem - (8 - b))))
            (B + 1) 0 (rem - (8 - b)) (val % 2 ^ (rem - (8 - b)))).1).getD B 0
          = buf.getD B 0 ||| val >>> (rem - (8 - b)) := by
        rw [writeLoop_frame F _ (B + 1) 0 _ _ B (by omega)]
        exact getD_set_self hBlen _
      have hih := ih (rem - (8 - b))
        (buf.set B (buf.getD B 0 ||| val >>> (rem - (8 - b))))
        (B + 1) 0 (val % 2 ^ (rem - (8 - b)))
        (acc ||| val >>> (rem - (8 - b)) <<< (rem - (8 - b)))
        (by omega) (by omega)
        (Nat.mod_lt _ (Nat.pos_pow_of_pos _ (by norm_num)))
        (by
          intro j
          by_cases hj : B = j
          · subst hj
            rw [getD_set_self hBlen]
            have h1 : buf.getD B 0 < 2 ^ 8 := hbytes B
            have h2 : val >>> (rem - (8 - b)) < 2 ^ 8 := by
              have h28 : (2 : ℕ) ^ (8 - b) ≤ 2 ^ 8 :=
                Nat.pow_le_pow_right (by norm_num) (by omega)
              omega
            exact Nat.or_lt_two_pow h1 h2
          · rw [getD_set_ne hj]; exact hbytes j)
        (by
          rw [getD_set_ne (by omega)]
          rw [hhigh (B + 1) (by omega)]
          simp)
        (by
          intro j hj
          rw [getD_set_ne (by omega)]
          exact hhigh j (by omega))
        (by
          rw [List.length_set]
          omega)
      have h8b : ¬8 - b = 0 := by omega
      simp only [writeLoop, readLoop, h0, hk, hmin, h8b, if_false, if_pos hge,
        Nat.sub_self, Nat.shiftRight_zero, Nat.shiftLeft_zero, hand, hmod, handv,
        hframe, hex, hih]
      rw [Nat.or_assoc, or_shift_mod]

/-! ## Supporting lemmas about the block cipher rounds -/

theorem sub32_add32_cancel (a b : ℕ) (h : a < 2 ^ 32) : sub32 (add32 a b) b = a := by
  have hW : (2 : ℕ) ^ 32 = 4294967296 := by norm_num
  simp only [add32, sub32, hW] at *
  omega

/-- One decryption round undoes one encryption round on bounded state. -/
theorem decRound_encRound (key : List ℕ) (x : ℕ × ℕ × ℕ)
    (h0 : x.1 < 2 ^ 32) (h1 : x.2.1 < 2 ^ 32) (h2 : x.2.2 < 2 ^ 32) :
    decRound key (encRound key x) = x := by
  obtain ⟨a, b, s⟩ := x
  simp only [encRound, decRound] at *
  rw [sub32_add32_cancel s tkDelta h2]
  rw [sub32_add32_cancel a _ h0]
  rw [sub32_add32_cancel b _ h1]

theorem encRound_iterate_lt (key : List ℕ) (n : ℕ) :
    ∀ x : ℕ × ℕ × ℕ, x.1 < 2 ^ 32 → x.2.1 < 2 ^ 32 → x.2.2 < 2 ^ 32 →
      ((encRound key)^[n] x).1 < 2 ^ 32 ∧ ((encRound key)^[n] x).2.1 < 2 ^ 32 ∧
        ((encRound key)^[n] x).2.2 < 2 ^ 32 := by
  induction n with
  | zero => intro x h0 h1 h2; simpa using ⟨h0, h1, h2⟩
  | succ m ihm =>
    intro x h0 h1 h2
    rw [Function.iterate_succ_apply']
    simp only [encRound, add32]
    exact ⟨Nat.mod_lt _ (by norm_num), Nat.mod_lt _ (by norm_num),
      Nat.mod_lt _ (by norm_num)⟩

theorem decIter_encIter (key : List ℕ) (n : ℕ) :
    ∀ x : ℕ × ℕ × ℕ, x.1 < 2 ^ 32 → x.2.1 < 2 ^ 32 → x.2.2 < 2 ^ 32 →
      (decRound key)^[n] ((encRound key)^[n] x) = x := by
  induction n with
  | zero => intro x _ _ _; simp
  | succ m ihm =>
    intro x h0 h1 h2
    rw [Function.iterate_succ_apply' (encRound key), Function.iterate_succ_apply (decRound key)]
    obtain ⟨hb0, hb1, hb2⟩ := encRound_iterate_lt key m x h0 h1 h2
    rw [decRound_encRound key _ hb0 hb1 hb2]
    exact ihm x h0 h1 h2

theorem encIter_sum (key : List ℕ) :
    ∀ (n : ℕ) (v0 v1 s : ℕ), s < 2 ^ 32 →
      ((encRound key)^[n] (v0, v1, s)).2.2 = (s + n * tkDelta) % 2 ^ 32 := by
  intro n
  induction n with
  | zero => intro v0 v1 s hs; simpa using (Nat.mod_eq_of_lt hs).symm
  | succ m ihm =>
    intro v0 v1 s hs
    rw [Function.iterate_succ_apply']
    simp only [encRound, add32]
    rw [ihm v0 v1 s hs, Nat.mod_add_mod]
    congr 1
    ring

/-- The pure per-block cipher rounds are exact inverses: this is the
intended algebra of `tiny_key_encrypt` / `tiny_key_decrypt`, and it holds;
the buffer-level wrappers break only on the `try_into().unwrap()` panic. -/
theorem decryptBlock_encryptBlock (key : List ℕ) (v0 v1 : ℕ)
    (h0 : v0 < 2 ^ 32) (h1 : v1 < 2 ^ 32) :
    decryptBlock key (encryptBlock key v0 v1).1 (encryptBlock key v0 v1).2 = (v0, v1) := by
  simp only [encryptBlock, decryptBlock]
  have hsum : ((encRound key)^[32] (v0, v1, 0)).2.2 = tkDelta * 32 % 2 ^ 32 := by
    rw [encIter_sum key 32 v0 v1 0 (by norm_num)]
    rw [Nat.zero_add, Nat.mul_comm]
  have hub := decIter_encIter key 32 (v0, v1, 0) h0 h1 (by norm_num)
  rw [← hsum]
  have heta : ((((encRound key)^[32] (v0, v1, 0)).1,
      ((encRound key)^[32] (v0, v1, 0)).2.1,
      ((encRound key)^[32] (v0, v1, 0)).2.2) : ℕ × ℕ × ℕ)
      = (encRound key)^[32] (v0, v1, 0) := by
    simp
  rw [heta, hub]

/-! ## Claim theorems -/

/-- C1: the cipher-involution claim fails on the code.  On the all-zero
8-byte buffer with the all-zero key, `tiny_key_encrypt` panics: the
encrypted words are `(1038804028, 3439814318)` and the second is ≥ 2^31,
so `v1.try_into::<u32>().unwrap()` panics on the negative `i32` and the
round trip never completes (the pure rounds themselves are exact inverses,
see `decryptBlock_encryptBlock`). -/
theorem tiny_key_encrypt_panics_on_zero_block :
    Packet.tiny_key_encrypt ⟨List.replicate 8 0, 0, 8⟩ [0, 0, 0, 0]
        = .error .panicErr ∧
      2 ^ 31 ≤ (encryptBlock [0, 0, 0, 0] 0 0).2 :=
  ⟨rfl, by decide⟩

/-- C2: the smart-16 round trip fails at threshold + 1.  `psmart_u16 128`
writes the plain big-endian bytes `[0x00, 0x80]` without the 32768 bias,
so `gsmart_u16` sees a leading byte `0 ≤ 127`, takes the compact branch
and returns 0 instead of 128 (the value 127 itself does round trip in the
1-byte form). -/
theorem psmart_u16_roundtrip_fails_at_128 :
    ((Packet.psmart_u16 (Packet.new 2) 128).set_pos 0).bind Packet.gsmart_u16
        = some (0, ⟨[0, 128], 1, 2⟩) ∧
      ((Packet.psmart_u16 (Packet.new 2) 127).set_pos 0).bind Packet.gsmart_u16
        = some (127, ⟨[127, 0], 1, 1⟩) := by
  constructor <;> decide

/-- C3: the smart-32 round trip fails for every value outside the compact
range: the extended branch's guard
`value >= 1073741824 && value <= 1073741823` is unsatisfiable, so
`psmart_u32 16384` writes nothing at all and the subsequent `gsmart_u32`
fails on the empty buffer instead of returning 16384 (a compact-range
value such as 20 does round trip). -/
theorem psmart_u32_writes_nothing_at_16384 :
    Packet.psmart_u32 (Packet.new 4) 16384 = Packet.new 4 ∧
      ((Packet.psmart_u32 (Packet.new 4) 16384).set_pos 0).bind Packet.gsmart_u32
        = none ∧
      ((Packet.psmart_u32 (Packet.new 4) 20).set_pos 0).bind Packet.gsmart_u32
        = some (20, ⟨[64, 20, 0, 0], 2, 2⟩) := by
  refine ⟨by decide, by decide, by decide⟩

/-- C4: the read-failure-atomicity claim fails for width 3.  On a fresh
3-byte buffer with write extent 0, `g3` succeeds with value 0 and leaves
the cursor at 3 > len — it performs no bounds check against the write
extent, contradicting both the claim and its own doc comment. -/
theorem g3_reads_past_write_extent :
    Packet.g3 ⟨[0, 0, 0], 0, 0⟩ = some (0, ⟨[0, 0, 0], 3, 0⟩) := by
  decide

/-- C5: the alt read/write pairs are not all inverses.  After
`p2_alt1 256`, reading the two bytes back with `g2_alt1` yields 0, not
256: the expression `bytes[pos - 1] as u16 & 255 << 8` parses as
`b &&& 0xFF00`, which is 0 for every byte, so the high byte is dropped
(`g2_alt2` loses the high byte the same way, while the single-byte pairs
and `p2_alt3`/`g2_alt3` do invert). -/
theorem p2_alt1_g2_alt1_not_inverse_at_256 :
    ((Packet.p2_alt1 (Packet.new 2) 256).set_pos 0).bind Packet.g2_alt1
        = some (0, ⟨[0, 1], 2, 0⟩) := by
  decide

/-- C6: the cursor invariant `pos ≤ len ≤ capacity` is not preserved:
`p2_alt1` on a fresh buffer advances `pos` to 2 but never updates `len`,
leaving the reachable state `pos = 2 > len = 0`. -/
theorem p2_alt1_breaks_cursor_invariant :
    ¬((Packet.p2_alt1 (Packet.new 0) 0).pos ≤ (Packet.p2_alt1 (Packet.new 0) 0).len) := by
  decide

/-- C9: the big-integer transform postcondition fails.  With one written
plaintext byte `0x02` (pos = len = 1), exponent 1 and modulus 1000, the
ciphertext is the single byte `0x02`, but `rsa_encrypt` writes it with
`pdata`, which clamps to `len - pos = 0` remaining bytes: the final
buffer is `[0x00, 0x01]` — the 2-byte length prefix with the ciphertext
byte dropped, instead of `[0x00, 0x01, 0x02]`. -/
theorem rsa_encrypt_truncates_ciphertext :
    Packet.rsa_encrypt ⟨[2], 1, 1⟩ 1 1000 = ⟨[0, 1], 2, 2⟩ := by
  decide

/-- Unfolding equation for a `writeBits` call whose capacity check
succeeds. -/
theorem writeBits_eq_of (s : PacketBit) (v n : ℕ) (hvalid : ¬(n = 0 ∨ n > 32))
    (buf : List ℕ)
    (hcap : ensureCapacity s.buffer (s.writerBytePos + (s.writerBitPos + n + 7) / 8)
      = some buf) :
    writeBits s v n = some { s with
      buffer := (writeLoop n buf s.writerBytePos s.writerBitPos n (v &&& bitMask n)).1
      writerBytePos :=
        (writeLoop n buf s.writerBytePos s.writerBitPos n (v &&& bitMask n)).2.1
      writerBitPos :=
        (writeLoop n buf s.writerBytePos s.writerBitPos n (v &&& bitMask n)).2.2 } := by
  simp only [writeBits]
  rw [if_neg hvalid, hcap]

/-- Unfolding equation for the value of a `readBits` call whose bound
check succeeds. -/
theorem readBits_fst_eq_of (s : PacketBit) (n : ℕ) (hvalid : ¬(n = 0 ∨ n > 32))
    (hcond : ¬(s.readerBytePos + (s.readerBitPos + n + 7) / 8 >
      s.writerBytePos + (if 0 < s.writerBitPos then 1 else 0))) :
    (readBits s n).1
      = some (readLoop n s.buffer s.readerBytePos s.readerBitPos n 0).1 := by
  simp only [readBits]
  rw [if_neg hvalid, if_neg hcond]

/-- C7: bit round trip.  For any bit-buffer state whose reader sits at the
writer's position with offset below 8, whose bits at and beyond that
position are still zero (as after any sequence of aligned writes and
reads), whose bytes are in range and whose capacity covers the write: for
every `n ∈ [1,32]` and `v < 2^n`, `write_bits v n` succeeds and an
immediate `read_bits n` returns `v`.  Moreover the spec's concrete
scenario — writing 2/3, 100/8, 0/1, 2000/16 and reading 3, 8, 1, 16
bits — yields `[2, 100, 0, 2000]`. -/
theorem write_bits_read_bits_roundtrip :
    (∀ (s : PacketBit) (n v : ℕ),
      s.readerBytePos = s.writerBytePos → s.readerBitPos = s.writerBitPos →
      s.writerBitPos < 8 → 1 ≤ n → n ≤ 32 → v < 2 ^ n →
      (∀ j, s.buffer.getD j 0 < 256) →
      s.buffer.getD s.writerBytePos 0 % 2 ^ (8 - s.writerBitPos) = 0 →
      (∀ j, s.writerBytePos < j → s.buffer.getD j 0 = 0) →
      s.writerBytePos + (s.writerBitPos + n + 7) / 8 ≤ s.buffer.length →
      ∃ s2, writeBits s v n = some s2 ∧ (readBits s2 n).1 = some v) ∧
    bitSeqDemo = some [2, 100, 0, 2000] := by
  constructor
  · intro s n v hrB hrb hwb hn1 hn2 hv hbytes hz1 hz2 hcap
    have hvalid : ¬(n = 0 ∨ n > 32) := by omega
    have hmask : v &&& bitMask n = v := by
      rw [bitMask]; exact Nat.and_pow_two_sub_one_of_lt_two_pow hv
    have hcapEq : ensureCapacity s.buffer
        (s.writerBytePos + (s.writerBitPos + n + 7) / 8) = some s.buffer := by
      rw [ensureCapacity, if_pos hcap]
    have hpos := writeLoop_pos n s.buffer s.writerBytePos s.writerBitPos n v
      (le_refl n) hwb
    have hrt := readLoop_writeLoop n n s.buffer s.writerBytePos s.writerBitPos v 0
      (le_refl n) hwb hv hbytes hz1 hz2 (by omega)
    have hw := writeBits_eq_of s v n hvalid s.buffer hcapEq
    rw [hmask] at hw
    refine ⟨_, hw, ?_⟩
    have hcond : ¬(s.readerBytePos + (s.readerBitPos + n + 7) / 8 >
        (writeLoop n s.buffer s.writerBytePos s.writerBitPos n v).2.1 +
          (if 0 < (writeLoop n s.buffer s.writerBytePos s.writerBitPos n v).2.2
            then 1 else 0)) := by
      rw [hrB, hrb]
      rcases Nat.eq_zero_or_pos
          (writeLoop n s.buffer s.writerBytePos s.writerBitPos n v).2.2 with h | h
      · rw [h, if_neg (Nat.lt_irrefl 0)]
        omega
      · rw [if_pos h]
        omega
    rw [readBits_fst_eq_of _ n hvalid hcond]
    show some (readLoop n (writeLoop n s.buffer s.writerBytePos s.writerBitPos n v).1
      s.readerBytePos s.readerBitPos n 0).1 = some v
    rw [hrB, hrb, hrt]
    simp
  · decide

/-- C8 counterexample: the bit-level formulation of the reader bound is
false.  After writing 7 bits of value 1 into a fresh buffer there are
`bits_written = 7` bits, so a `read_bits 8` has `bits_read + 8 = 8 > 7`
and the claim demands `UnexpectedEof`; the code instead succeeds and
returns 2 (the 7 written bits plus one zero padding bit), because its
bound check is at byte granularity. -/
theorem read_bits_succeeds_past_bits_written :
    PacketBit.bits_read ((writeBits PacketBit.new 1 7).getD PacketBit.new) + 8 >
        PacketBit.bits_written ((writeBits PacketBit.new 1 7).getD PacketBit.new) ∧
      (readBits ((writeBits PacketBit.new 1 7).getD PacketBit.new) 8).1 = some 2 := by
  constructor <;> decide

/-- C8 (amended): for `n ∈ [1,32]`, `read_bits n` fails with
`UnexpectedEof` exactly when the whole bytes needed from the reader
position, `reader_byte_pos + ⌈(reader_bit_pos + n) / 8⌉`, exceed the
written byte extent `writer_byte_pos + (1 if writer_bit_pos > 0)` — a
byte-granularity check that admits reading up to 7 padding bits of the
last partly-written byte — and the check precedes any cursor mutation, so
on failure the state is unchanged. -/
theorem read_bits_eof_byte_granular (s : PacketBit) (n : ℕ)
    (h1 : 1 ≤ n) (h2 : n ≤ 32) :
    ((readBits s n).1 = none ↔
      s.writerBytePos + (if 0 < s.writerBitPos then 1 else 0) <
        s.readerBytePos + (s.readerBitPos + n + 7) / 8) ∧
    ((readBits s n).1 = none → (readBits s n).2 = s) := by
  have hvalid : ¬(n = 0 ∨ n > 32) := by omega
  by_cases hc : s.readerBytePos + (s.readerBitPos + n + 7) / 8 >
      s.writerBytePos + (if 0 < s.writerBitPos then 1 else 0)
  · rw [readBits, if_neg hvalid, if_pos hc]
    exact ⟨⟨fun _ => hc, fun _ => rfl⟩, fun _ => rfl⟩
  · rw [readBits, if_neg hvalid, if_neg hc]
    exact ⟨⟨fun h => by simp at h, fun h => absurd h hc⟩, fun h => by simp at h⟩

/-- Witness for the amended C8 statement at the concrete state
`PacketBit.new` with `n = 8` (nothing written, so the read fails and the
state is untouched). -/
theorem read_bits_eof_byte_granular_witness :
    ((readBits PacketBit.new 8).1 = none ↔
      PacketBit.new.writerBytePos + (if 0 < PacketBit.new.writerBitPos then 1 else 0) <
        PacketBit.new.readerBytePos + (PacketBit.new.readerBitPos + 8 + 7) / 8) ∧
    ((readBits PacketBit.new 8).1 = none → (readBits PacketBit.new 8).2 = PacketBit.new) :=
  read_bits_eof_byte_granular PacketBit.new 8 (by decide) (by decide)

/-- Witness for C7 at a concrete instance: a fresh bit buffer, 4 bits of
value 9. -/
theorem write_bits_read_bits_roundtrip_witness :
    ∃ s2, writeBits PacketBit.new 9 4 = some s2 ∧ (readBits s2 4).1 = some 9 :=
  write_bits_read_bits_roundtrip.1 PacketBit.new 4 9 rfl rfl (by decide) (by decide)
    (by decide) (by decide)
    (fun j => by
      show (List.replicate 32 0).getD j 0 < 256
      rw [getD_replicate_zero]
      decide)
    (by decide)
    (fun j _ => by
      show (List.replicate 32 0).getD j 0 = 0
      rw [getD_replicate_zero])
    (by decide)

/-- C10: `write_bits` silently truncates oversized values.  For a state
with a valid writer offset and enough capacity, and any `n ∈ [1,32]` and
any value `v`, `write_bits v n` computes exactly what it computes for
`v % 2^n` (the source masks with `BIT_MASKS[n]` before the loop), it
succeeds, and it advances the writer by exactly `n` bits. -/
theorem write_bits_truncates (s : PacketBit) (v n : ℕ)
    (h1 : 1 ≤ n) (h2 : n ≤ 32) (h3 : s.writerBitPos < 8)
    (h4 : s.writerBytePos + (s.writerBitPos + n + 7) / 8 ≤ s.buffer.length) :
    writeBits s v n = writeBits s (v % 2 ^ n) n ∧
      ∃ s2, writeBits s v n = some s2 ∧
        s2.bits_written = s.bits_written + n := by
  have hvalid : ¬(n = 0 ∨ n > 32) := by omega
  have hmask : v &&& bitMask n = v % 2 ^ n &&& bitMask n := by
    rw [bitMask, Nat.and_pow_two_sub_one_eq_mod, Nat.and_pow_two_sub_one_eq_mod,
      Nat.mod_mod_of_dvd _ (dvd_refl _)]
  have hcapEq : ensureCapacity s.buffer
      (s.writerBytePos + (s.writerBitPos + n + 7) / 8) = some s.buffer := by
    rw [ensureCapacity, if_pos h4]
  constructor
  · simp only [writeBits, hmask]
  · have hw := writeBits_eq_of s v n hvalid s.buffer hcapEq
    refine ⟨_, hw, ?_⟩
    simp only [PacketBit.bits_written]
    show (writeLoop n s.buffer s.writerBytePos s.writerBitPos n (v &&& bitMask n)).2.1 * 8
        + (writeLoop n s.buffer s.writerBytePos s.writerBitPos n (v &&& bitMask n)).2.2
      = s.writerBytePos * 8 + s.writerBitPos + n
    have hpos := writeLoop_pos n s.buffer s.writerBytePos s.writerBitPos n
      (v &&& bitMask n) (le_refl n) h3
    omega

/-- Witness for C10: a fresh bit buffer, writing `2^33` (bits far above
position 4) with `n = 4`. -/
theorem write_bits_truncates_witness :
    writeBits PacketBit.new (2 ^ 33) 4 = writeBits PacketBit.new (2 ^ 33 % 2 ^ 4) 4 ∧
      ∃ s2, writeBits PacketBit.new (2 ^ 33) 4 = some s2 ∧
        s2.bits_written = PacketBit.new.bits_written + 4 :=
  write_bits_truncates PacketBit.new (2 ^ 33) 4 (by decide) (by decide) (by decide)
    (by decide)

end Rs2io
